import Mathlib

/-!
Shallow embedding of the numeric helper functions of the PyDMD tutorial-12
notebook (`tutorials/tutorial12/tutorial-12-cdmd.ipynb`), together with
theorems settling the specification claims about them.

Modelling conventions:
* a grayscale frame is a `List (List ℚ)` (rows of rational pixel values);
  numpy float arithmetic is modelled by exact rational arithmetic;
* a video is a `List Frame` (frame index first, as in the notebook tensors);
* numpy in-place mutation is modelled by explicit state passing: a function
  that mutates an argument returns the final state of that argument next to
  its return value;
* the `assert` statements become `Except String` results;
* the filesystem seen by the loaders is a pair of maps: a directory-listing
  map `String → List String` and a pixel-read map `String → List (List ℕ)`.
-/

namespace Tutorial12

/-- A video frame: rows of rational pixel intensities. -/
abbrev Frame := List (List ℚ)

/-- Net effect on one array element of the two sequential numpy masked
assignments `pred[pred < thresh] = 0` followed by `pred[pred >= thresh] = 1`
that `calc_iou` and `calc_f1` use to binarize `pred`. -/
def binStep (thresh x : ℚ) : ℚ :=
  let x1 := if x < thresh then 0 else x
  if thresh ≤ x1 then 1 else x1

/-- The binarization of a whole frame performed inside `calc_iou`/`calc_f1`. -/
def binarizeFrame (thresh : ℚ) (f : Frame) : Frame :=
  f.map fun row => row.map (binStep thresh)

/-- `np.logical_and(pred, truth).sum()`: the number of positions where both
arrays are nonzero (numpy truthiness of a float is `≠ 0`). -/
def andSum (p t : Frame) : ℕ :=
  (p.flatten.zip t.flatten).countP fun ab => decide (ab.1 ≠ 0) && decide (ab.2 ≠ 0)

/-- `np.logical_or(pred, truth).sum()`: the number of positions where at least
one of the arrays is nonzero. -/
def orSum (p t : Frame) : ℕ :=
  (p.flatten.zip t.flatten).countP fun ab => decide (ab.1 ≠ 0) || decide (ab.2 ≠ 0)

/-- Shallow embedding of `calc_iou`.  The source mutates `pred` in place via
the two masked assignments and never assigns to `truth`; the embedding returns
the final state of `pred`, the final state of `truth` and the returned IoU
value `intersection / union if union > 0 else 0`. -/
def calc_iou (pred truth : Frame) (thresh : ℚ) : Frame × Frame × ℚ :=
  let pred1 := binarizeFrame thresh pred
  let intersection := andSum pred1 truth
  let union := orSum pred1 truth
  (pred1, truth, if 0 < union then (intersection : ℚ) / (union : ℚ) else 0)

/-- `numpy` shape of a (list-modelled, possibly ragged) 2D array: the row
count together with the length of every row.  Two rectangular arrays have the
same numpy shape iff these agree. -/
def frameShape (f : Frame) : ℕ × List ℕ := (f.length, f.map List.length)

/-- Shape of a 3D (video) array: frame count plus every frame's shape. -/
def vshape (v : List Frame) : ℕ × List (ℕ × List ℕ) := (v.length, v.map frameShape)

/-- One iteration of the loop in `calc_miou`: reads frame `i` of the working
copy and of `truth`, runs `calc_iou` on them (which writes back the mutated
frames), and accumulates the IoU value. -/
def miouStep (thresh : ℚ) (s : List Frame × List Frame × ℚ) (i : ℕ) :
    List Frame × List Frame × ℚ :=
  let r := calc_iou ((s.1).getD i []) ((s.2.1).getD i []) thresh
  (s.1.set i r.1, s.2.1.set i r.2.1, s.2.2 + r.2.2)

/-- Shallow embedding of `calc_miou`.  The source asserts equal shapes, makes
a copy of `pred`, loops `calc_iou` over the frames of the copy and averages.
The embedding returns the `Except` result together with the caller's final
`pred` state (the copy shields it from the mutation inside `calc_iou`) and the
caller's final `truth` state (threaded through the loop). -/
def calc_miou (pred truth : List Frame) (thresh : ℚ) :
    Except String ℚ × List Frame × List Frame :=
  if vshape pred = vshape truth then
    let s := (List.range pred.length).foldl (miouStep thresh) (pred, truth, 0)
    (Except.ok (s.2.2 / (pred.length : ℚ)), pred, s.2.1)
  else
    (Except.error "Pred and truth must be same shape", pred, truth)

/-- Shallow embedding of `f1_score` (flattened arrays become lists, paired
elementwise).  `tn` is computed by the source but never used afterwards; it is
kept to mirror the code. -/
def f1_score (y_true y_pred : List ℚ) (beta : ℚ) : ℚ :=
  let pairs := y_true.zip y_pred
  let tp := (pairs.map fun ab => ab.1 * ab.2).sum
  let tn := (pairs.map fun ab => (1 - ab.1) * (1 - ab.2)).sum
  let fp := (pairs.map fun ab => (1 - ab.1) * ab.2).sum
  let fn := (pairs.map fun ab => ab.1 * (1 - ab.2)).sum
  let epsilon : ℚ := 1 / 10000000
  let prec := tp / (tp + fp + epsilon)
  let recl := tp / (tp + fn + epsilon)
  let unused := tn
  ((1 + beta ^ 2) * (prec * recl)) / (beta ^ 2 * prec + recl + epsilon)

/-- The `astype(np.uint8)` cast of a (nonnegative-intended) float value:
truncation toward zero, reduced mod 256, back as a rational. -/
def uint8OfRat (x : ℚ) : ℚ := ((x.floor.toNat % 256 : ℕ) : ℚ)

/-- `flatten()` of a video tensor: frames concatenated row-major. -/
def flattenVideo (v : List Frame) : List ℚ := (v.map List.flatten).flatten

/-- Shallow embedding of `calc_f1`: asserts equal shapes, copies both arrays
(so no caller state changes), binarizes the `pred` copy with the same masked
assignments as `calc_iou`, casts both to uint8, flattens and calls
`f1_score(truth, pred)` with the default `beta = 1`. -/
def calc_f1 (pred truth : List Frame) (thresh : ℚ) : Except String ℚ :=
  if vshape pred = vshape truth then
    let pred1 := (pred.map (binarizeFrame thresh)).map fun f => f.map (List.map uint8OfRat)
    let truth1 := truth.map fun f => f.map (List.map uint8OfRat)
    Except.ok (f1_score (flattenVideo truth1) (flattenVideo pred1) 1)
  else
    Except.error "Pred and truth must be same shape"

/-- The number of pixels of a (flattened) array that the metric binarization
of `calc_iou`/`calc_f1` classifies as foreground, i.e. maps to `1`. -/
def fgCount (thresh : ℚ) (l : List ℚ) : ℕ :=
  (l.map (binStep thresh)).countP fun x => decide (x = 1)

/-- Net effect on one element of the two sequential masked assignments
`subbed[subbed > thresh] = 1` followed by `subbed[subbed <= thresh] = 0` in
the mask mode of `play_video_removed`. -/
def playStep (thresh x : ℚ) : ℚ :=
  let x1 := if thresh < x then 1 else x
  if x1 ≤ thresh then 0 else x1

/-- `np.clip(x, 0, 1)` on one element. -/
def clip01 (x : ℚ) : ℚ := max 0 (min 1 x)

/-- Elementwise subtraction of two same-shaped frames,
`frame - bg` / `video[i,:,:] -= bg`. -/
def subFrame (f bg : Frame) : Frame :=
  f.zipWith (fun r br => r.zipWith (fun a b => a - b) br) bg

/-- The per-frame transform of `play_video_removed`: subtract the background,
then either threshold into a binary mask or clip to `[0, 1]`. -/
def playTransform (bg : Frame) (frame : Frame) (mask : Bool) (thresh : ℚ) : Frame :=
  let subbed := subFrame frame bg
  if mask then subbed.map fun row => row.map (playStep thresh)
  else subbed.map fun row => row.map clip01

/-- One iteration of the loop of `get_video_removed`:
`video[i, :, :] -= bg`. -/
def gvrStep (bg : Frame) (s : List Frame) (i : ℕ) : List Frame :=
  s.set i (subFrame (s.getD i []) bg)

/-- Shallow embedding of `get_video_removed`.  The source subtracts `bg` from
every frame of `video` in place and returns `video` itself; the embedding
returns the caller's final `video` state together with the returned value
(the same mutated array). -/
def get_video_removed (video : List Frame) (bg : Frame) : List Frame × List Frame :=
  let v := (List.range video.length).foldl (gvrStep bg) video
  (v, v)

/-- `tmp.reshape(-1).astype(np.float32) / 255` for one image read as a
grayscale `ℕ` pixel grid: row-major flattening followed by normalization. -/
def normalizeImg (img : List (List ℕ)) : List ℚ :=
  img.flatten.map fun p : ℕ => (p : ℚ) / 255

/-- `np.vstack(rows).T` for a rectangular stack of equal-length rows:
entry `(p, i)` of the result is entry `p` of row `i`. -/
def matTranspose (rows : List (List ℚ)) : List (List ℚ) :=
  (List.range (rows.headD []).length).map fun p => rows.map fun r => r.getD p 0

/-- Elementwise sum of two same-shaped matrices (`vid += noise_sample`). -/
def addMat (a b : List (List ℚ)) : List (List ℚ) :=
  a.zipWith (fun r1 r2 => r1.zipWith (fun x y => x + y) r2) b

/-- `vid.clip(0, 1)` on a whole matrix. -/
def clipMat (a : List (List ℚ)) : List (List ℚ) := a.map fun row => row.map clip01

/-- The `shape` local of `get_video_dmd`: reassigned on every loop iteration,
so it ends as the shape of the last image (`none` when there are no images). -/
def lastShape (imgs : List (List (List ℕ))) : Option (ℕ × ℕ) :=
  imgs.getLast?.map fun im => (im.length, (im.headD []).length)

/-- Shallow embedding of `get_video_dmd`.  `imgs` is the lexicographically
ordered list of grayscale images read from the video's directory, and
`noiseSample` the matrix of Gaussian draws `np.random.normal(0, noise_amt,
vid.shape)`.  The source builds `vid = np.vstack(imgs).T`, adds the noise and
clips when `noise` is set — and then returns a freshly rebuilt
`np.vstack(imgs).T`, so the noisy clipped matrix `vid` is dead. -/
def get_video_dmd (imgs : List (List (List ℕ))) (noise : Bool)
    (noiseSample : List (List ℚ)) : List (List ℚ) × Option (ℕ × ℕ) :=
  let flat := imgs.map normalizeImg
  let vid := matTranspose flat
  let vid2 := if noise then clipMat (addMat vid noiseSample) else vid
  let unused := vid2
  (matTranspose flat, lastShape imgs)

/-- The loader as the specification claim describes it: identical to
`get_video_dmd` except that the noisy, clipped matrix is what is returned. -/
def get_video_dmd_claimed (imgs : List (List (List ℕ))) (noise : Bool)
    (noiseSample : List (List ℚ)) : List (List ℚ) × Option (ℕ × ℕ) :=
  let flat := imgs.map normalizeImg
  let vid := matTranspose flat
  let vid2 := if noise then clipMat (addMat vid noiseSample) else vid
  (vid2, lastShape imgs)

/-- Column `i` of a matrix stored as a list of rows. -/
def colOf (m : List (List ℚ)) (i : ℕ) : List ℚ := m.map fun row => row.getD i 0

/-- `reshape` of a flat list back into rows of width `w`
(row-major, as numpy's `reshape(shape)`). -/
def unflatten (w : ℕ) (l : List ℚ) : List (List ℚ) :=
  if w = 0 ∨ l = [] then [] else l.take w :: unflatten w (l.drop w)
termination_by l.length
decreasing_by
  rename_i h
  push_neg at h
  have h1 : 0 < w := Nat.pos_of_ne_zero h.1
  have h2 : l.length ≠ 0 := fun hl => h.2 (List.eq_nil_of_length_eq_zero hl)
  simp only [List.length_drop]
  omega

/-- Byte-wise lexicographic order on strings, the order `sorted` uses on
typical ASCII filenames. -/
def lexLe : List Char → List Char → Bool
  | [], _ => true
  | _ :: _, [] => false
  | a :: as, b :: bs =>
    if a.toNat < b.toNat then true
    else if b.toNat < a.toNat then false
    else lexLe as bs

/-- `strLe a b` is `a ≤ b` in the filename order. -/
def strLe (a b : String) : Bool := lexLe a.data b.data

/-- Insert into a sorted list of filenames. -/
def insertSorted (x : String) : List String → List String
  | [] => [x]
  | y :: ys => if strLe x y then x :: y :: ys else y :: insertSorted x ys

/-- `sorted(...)` on a list of filenames. -/
def sortStr : List String → List String
  | [] => []
  | x :: xs => insertSorted x (sortStr xs)

/-- Shallow embedding of `get_gt_video` against an abstract filesystem:
`listing` maps a directory path to its filenames, `readImg` maps a file path
to its grayscale pixel grid.  Mirrors the source exactly: the local named
`jpeg_dir` holds the ground-truth directory and `gt_dir` the raw-frame
directory, the listings of both are intersected, the first binding of `tmp`
(built from `gt_dir`) is dead — immediately overwritten by the `cv2.imread`
from the `jpeg_dir` (ground-truth) path — and the pixels are normalized. -/
def get_gt_video (listing : String → List String)
    (readImg : String → List (List ℕ)) (object : String) : List Frame :=
  let jpeg_dir := "SegTrackv2/GroundTruth/"
  let gt_dir := "SegTrackv2/JPEGImages/"
  let jpeg_list := sortStr (listing (jpeg_dir ++ object))
  let gt_list := sortStr (listing (gt_dir ++ object))
  let valid := jpeg_list.filter fun f => gt_list.contains f
  (sortStr valid).map fun i =>
    let tmp := gt_dir ++ "/" ++ i
    let tmp := (readImg (jpeg_dir ++ object ++ "/" ++ i)).map fun row =>
      row.map fun p : ℕ => (p : ℚ) / 255
    tmp

/-- The ground-truth loader as the specification claim describes it: the
pixel data of each intersected filename is read from the raw-frame
(`JPEGImages`) directory instead of the ground-truth directory. -/
def get_gt_video_claimed (listing : String → List String)
    (readImg : String → List (List ℕ)) (object : String) : List Frame :=
  let jpeg_dir := "SegTrackv2/GroundTruth/"
  let gt_dir := "SegTrackv2/JPEGImages/"
  let jpeg_list := sortStr (listing (jpeg_dir ++ object))
  let gt_list := sortStr (listing (gt_dir ++ object))
  let valid := jpeg_list.filter fun f => gt_list.contains f
  (sortStr valid).map fun i =>
    (readImg (gt_dir ++ object ++ "/" ++ i)).map fun row =>
      row.map fun p : ℕ => (p : ℚ) / 255

/-- The ground-truth loader with the evidently intended behavior of spec §9:
list both directories, intersect by filename, and read the pixel data of each
intersected filename from the ground-truth directory. -/
def gt_video_intended (listing : String → List String)
    (readImg : String → List (List ℕ)) (object : String) : List Frame :=
  let gtDir := "SegTrackv2/GroundTruth/"
  let rawDir := "SegTrackv2/JPEGImages/"
  let gtNames := sortStr (listing (gtDir ++ object))
  let rawNames := sortStr (listing (rawDir ++ object))
  let common := gtNames.filter fun f => rawNames.contains f
  (sortStr common).map fun i =>
    (readImg (gtDir ++ object ++ "/" ++ i)).map fun row =>
      row.map fun p : ℕ => (p : ℚ) / 255

/-- Binary-mask predicate: every pixel of the frame is `0` or `1`. -/
def isBinaryFrame (f : Frame) : Prop := ∀ x ∈ f.flatten, x = 0 ∨ x = 1

/-- The frame contains at least one positive (nonzero) pixel. -/
def hasPositive (f : Frame) : Prop := ∃ x ∈ f.flatten, x ≠ 0

/-- `pred` and `truth` have no position where both are positive. -/
def noOverlap (p t : Frame) : Prop :=
  ∀ ab ∈ p.flatten.zip t.flatten, ¬(ab.1 ≠ 0 ∧ ab.2 ≠ 0)

lemma set_getD_self (l : List Frame) (i : ℕ) (d : Frame) :
    l.set i (l.getD i d) = l := by
  induction l generalizing i with
  | nil => simp
  | cons a as ih =>
    cases i with
    | zero => simp
    | succ n =>
      rw [List.getD_cons_succ, List.set_cons_succ]
      exact congrArg (a :: ·) (ih n)

lemma drop_set_succ {α : Type} (l : List α) (k : ℕ) (a : α) :
    (l.set k a).drop (k + 1) = l.drop (k + 1) := by
  apply List.ext_getElem?
  intro j
  rw [List.getElem?_drop, List.getElem?_drop, List.getElem?_set_ne (by omega)]

lemma getD_eq_of_drop_eq {α : Type} {s V : List α} {k : ℕ} (h : s.drop k = V.drop k)
    (d : α) : s.getD k d = V.getD k d := by
  rw [List.getD_eq_getElem?_getD, List.getD_eq_getElem?_getD]
  have h0 : (s.drop k)[0]? = (V.drop k)[0]? := by rw [h]
  rw [List.getElem?_drop, List.getElem?_drop] at h0
  simpa using congrArg (Option.getD · d) h0

/-- A `for i in range(n)` loop whose body is `a[i] = upd(a[i])` leaves the
array equal to `a.map upd`.  Stated over `range' k m` to support the
induction. -/
lemma foldl_set_loop {α : Type} (d : α) (upd : α → α) (V : List α) :
    ∀ (m k : ℕ) (s : List α), k + m = V.length → s.length = V.length →
      s.drop k = V.drop k →
      (List.range' k m).foldl (fun st i => st.set i (upd (st.getD i d))) s =
        s.take k ++ (V.drop k).map upd := by
  intro m
  induction m with
  | zero =>
    intro k s hk hlen hdrop
    have h1 : V.drop k = [] := by
      apply List.drop_eq_nil_of_le; omega
    have h2 : s.take k = s := List.take_of_length_le (by omega)
    simp [h1, h2]
  | succ m ih =>
    intro k s hk hlen hdrop
    have hks : k < s.length := by omega
    have hkV : k < V.length := by omega
    have hstep : List.range' k (m + 1) = k :: List.range' (k + 1) m := by
      simpa using List.range'_succ k m 1
    rw [hstep, List.foldl_cons]
    have hget : s.getD k d = V.getD k d := getD_eq_of_drop_eq hdrop d
    have hset : s.set k (upd (s.getD k d)) = s.take k ++ upd (s.getD k d) :: s.drop (k + 1) :=
      List.set_eq_take_cons_drop _ hks
    have hlen' : (s.set k (upd (s.getD k d))).length = V.length := by
      rw [List.length_set]; exact hlen
    have hdrop' : (s.set k (upd (s.getD k d))).drop (k + 1) = V.drop (k + 1) := by
      rw [drop_set_succ]
      have h1 : (s.drop k).drop 1 = (V.drop k).drop 1 := by rw [hdrop]
      simpa [List.drop_drop, Nat.add_comm] using h1
    rw [ih (k + 1) _ (by omega) hlen' hdrop']
    have htake : (s.set k (upd (s.getD k d))).take (k + 1) =
        s.take k ++ [upd (s.getD k d)] := by
      rw [hset]
      have hlt : (s.take k).length = k := by rw [List.length_take]; omega
      calc (s.take k ++ upd (s.getD k d) :: s.drop (k + 1)).take (k + 1)
          = (s.take k ++ upd (s.getD k d) :: s.drop (k + 1)).take ((s.take k).length + 1) := by
            rw [hlt]
        _ = s.take k ++ (upd (s.getD k d) :: s.drop (k + 1)).take 1 := List.take_append 1
        _ = s.take k ++ [upd (s.getD k d)] := by simp
    rw [htake]
    have hVdrop : V.drop k = V[k] :: V.drop (k + 1) := List.drop_eq_getElem_cons hkV
    have hgd : V.getD k d = V[k] := by
      rw [List.getD_eq_getElem?_getD, List.getElem?_eq_getElem hkV]; rfl
    rw [hVdrop, List.map_cons, List.append_assoc, List.singleton_append, hget, hgd]

/-- The loop of `calc_miou`: the working copy gets binarized frame by frame,
the threaded `truth` is returned unchanged, and the accumulator picks up
exactly the per-frame IoU values of the original frames. -/
lemma miou_loop (th : ℚ) (P T : List Frame) :
    ∀ (m k : ℕ) (cs : List Frame) (acc : ℚ), k + m = P.length →
      cs.length = P.length → cs.drop k = P.drop k →
      (List.range' k m).foldl (miouStep th) (cs, T, acc) =
        (cs.take k ++ (P.drop k).map (binarizeFrame th), T,
          acc + ((List.range' k m).map fun i =>
            (calc_iou (P.getD i []) (T.getD i []) th).2.2).sum) := by
  intro m
  induction m with
  | zero =>
    intro k cs acc hk hlen hdrop
    have h1 : P.drop k = [] := by
      apply List.drop_eq_nil_of_le; omega
    have h2 : cs.take k = cs := List.take_of_length_le (by omega)
    simp [h1, h2]
  | succ m ih =>
    intro k cs acc hk hlen hdrop
    have hks : k < cs.length := by omega
    have hkP : k < P.length := by omega
    have hstep : List.range' k (m + 1) = k :: List.range' (k + 1) m := by
      simpa using List.range'_succ k m 1
    rw [hstep, List.foldl_cons]
    have hget : cs.getD k [] = P.getD k [] := getD_eq_of_drop_eq hdrop []
    have hTset : T.set k (T.getD k []) = T := set_getD_self T k []
    have hone : miouStep th (cs, T, acc) k =
        (cs.set k (binarizeFrame th (P.getD k [])), T,
          acc + (calc_iou (P.getD k []) (T.getD k []) th).2.2) := by
      simp only [miouStep, calc_iou, hget, hTset]
    rw [hone]
    have hlen' : (cs.set k (binarizeFrame th (P.getD k []))).length = P.length := by
      rw [List.length_set]; exact hlen
    have hdrop' : (cs.set k (binarizeFrame th (P.getD k []))).drop (k + 1) =
        P.drop (k + 1) := by
      rw [drop_set_succ]
      have h1 : (cs.drop k).drop 1 = (P.drop k).drop 1 := by rw [hdrop]
      simpa [List.drop_drop, Nat.add_comm] using h1
    rw [ih (k + 1) _ _ (by omega) hlen' hdrop']
    have htake : (cs.set k (binarizeFrame th (P.getD k []))).take (k + 1) =
        cs.take k ++ [binarizeFrame th (P.getD k [])] := by
      rw [List.set_eq_take_cons_drop _ hks]
      have hlt : (cs.take k).length = k := List.length_take_of_le (le_of_lt hks)
      calc (cs.take k ++ binarizeFrame th (P.getD k []) :: cs.drop (k + 1)).take (k + 1)
          = (cs.take k ++ binarizeFrame th (P.getD k []) :: cs.drop (k + 1)).take
              ((cs.take k).length + 1) := by rw [hlt]
        _ = cs.take k ++ (binarizeFrame th (P.getD k []) :: cs.drop (k + 1)).take 1 :=
            List.take_append 1
        _ = cs.take k ++ [binarizeFrame th (P.getD k [])] := by simp
    rw [htake]
    have hVdrop : P.drop k = P[k] :: P.drop (k + 1) := List.drop_eq_getElem_cons hkP
    have hgd : P.getD k [] = P[k] := by
      rw [List.getD_eq_getElem?_getD, List.getElem?_eq_getElem hkP]; rfl
    simp only [Prod.mk.injEq]
    refine ⟨?_, trivial, ?_⟩
    · rw [hVdrop, List.map_cons, List.append_assoc, List.singleton_append, hgd]
    · simp only [List.map_cons, List.sum_cons]
      ring

lemma binStep_eq_one_iff (t x : ℚ) : binStep t x = 1 ↔ (t ≤ x ∨ t ≤ 0) := by
  unfold binStep
  by_cases h1 : x < t
  · simp only [if_pos h1]
    by_cases h2 : t ≤ 0
    · simp [h2]
    · simp only [if_neg h2]
      constructor
      · intro h; exact absurd h (by norm_num)
      · rintro (h | h) <;> [exact absurd h (not_le.2 h1); exact absurd h h2]
  · simp only [if_neg h1]
    have hx : t ≤ x := le_of_not_lt h1
    simp [hx]

lemma binStep_of_binary (t x : ℚ) (hx : x = 0 ∨ x = 1) (h0 : 0 < t) (h1 : t ≤ 1) :
    binStep t x = x := by
  rcases hx with h | h <;> subst h <;> unfold binStep
  · rw [if_pos h0, if_neg (not_le.2 h0)]
  · rw [if_neg (not_lt.2 h1), if_pos h1]

lemma binarizeFrame_of_binary {t : ℚ} (f : Frame) (hb : isBinaryFrame f)
    (h0 : 0 < t) (h1 : t ≤ 1) : binarizeFrame t f = f := by
  unfold binarizeFrame
  have hrow : ∀ row ∈ f, row.map (binStep t) = row := by
    intro row hrow
    rw [List.map_congr_left fun x hx =>
      binStep_of_binary t x (hb x (List.mem_flatten.2 ⟨row, hrow, hx⟩)) h0 h1]
    exact List.map_id' row
  rw [List.map_congr_left hrow]
  exact List.map_id' f

lemma flatten_binarize (t : ℚ) (f : Frame) :
    (binarizeFrame t f).flatten = f.flatten.map (binStep t) := by
  unfold binarizeFrame
  rw [List.map_flatten]

lemma countP_zip_self {α : Type} (l : List α) (q : α × α → Bool) :
    (l.zip l).countP q = l.countP fun a => q (a, a) := by
  induction l with
  | nil => rfl
  | cons a as ih => simp [List.zip_cons_cons, List.countP_cons, ih]

lemma andSum_le_orSum (p t : Frame) : andSum p t ≤ orSum p t := by
  unfold andSum orSum
  refine List.countP_mono_left fun ab _ h => ?_
  simp only [Bool.and_eq_true, decide_eq_true_eq] at h
  simp [h.1]

lemma flatten_length_of_shape {p t : Frame} (h : frameShape p = frameShape t) :
    p.flatten.length = t.flatten.length := by
  have h2 : p.map List.length = t.map List.length := congrArg Prod.snd h
  rw [List.length_flatten, List.length_flatten, h2]

lemma iou_value_eq (pred truth : Frame) (t : ℚ) :
    (calc_iou pred truth t).2.2 =
      if 0 < orSum (binarizeFrame t pred) truth then
        ((andSum (binarizeFrame t pred) truth : ℚ) /
          (orSum (binarizeFrame t pred) truth : ℚ))
      else 0 := rfl

lemma sum_zip_self_mul (y : List ℚ) (hb : ∀ x ∈ y, x = 0 ∨ x = 1) :
    ((y.zip y).map fun ab => ab.1 * ab.2).sum = y.sum := by
  induction y with
  | nil => rfl
  | cons a as ih =>
    have ha := hb a (List.mem_cons_self a as)
    have has : ∀ x ∈ as, x = 0 ∨ x = 1 := fun x hx => hb x (List.mem_cons_of_mem a hx)
    simp only [List.zip_cons_cons, List.map_cons, List.sum_cons, ih has]
    rcases ha with h | h <;> subst h <;> ring

lemma sum_zip_self_fp (y : List ℚ) (hb : ∀ x ∈ y, x = 0 ∨ x = 1) :
    ((y.zip y).map fun ab => (1 - ab.1) * ab.2).sum = 0 := by
  induction y with
  | nil => rfl
  | cons a as ih =>
    have ha := hb a (List.mem_cons_self a as)
    have has : ∀ x ∈ as, x = 0 ∨ x = 1 := fun x hx => hb x (List.mem_cons_of_mem a hx)
    simp only [List.zip_cons_cons, List.map_cons, List.sum_cons, ih has]
    rcases ha with h | h <;> subst h <;> ring

lemma sum_zip_self_fn (y : List ℚ) (hb : ∀ x ∈ y, x = 0 ∨ x = 1) :
    ((y.zip y).map fun ab => ab.1 * (1 - ab.2)).sum = 0 := by
  induction y with
  | nil => rfl
  | cons a as ih =>
    have ha := hb a (List.mem_cons_self a as)
    have has : ∀ x ∈ as, x = 0 ∨ x = 1 := fun x hx => hb x (List.mem_cons_of_mem a hx)
    simp only [List.zip_cons_cons, List.map_cons, List.sum_cons, ih has]
    rcases ha with h | h <;> subst h <;> ring

lemma one_le_sum_of_binary (y : List ℚ) (hb : ∀ x ∈ y, x = 0 ∨ x = 1)
    (hp : ∃ x ∈ y, x ≠ 0) : 1 ≤ y.sum := by
  obtain ⟨x, hx, hx0⟩ := hp
  have hx1 : x = 1 := (hb x hx).resolve_left hx0
  obtain ⟨l1, l2, rfl⟩ := List.append_of_mem hx
  rw [List.sum_append, List.sum_cons]
  have h1 : 0 ≤ l1.sum := List.sum_nonneg fun a ha =>
    (hb a (List.mem_append_left _ ha)).elim (fun h => h.ge) (fun h => by rw [h]; norm_num)
  have h2 : 0 ≤ l2.sum := List.sum_nonneg fun a ha =>
    (hb a (List.mem_append_right _ (List.mem_cons_of_mem _ ha))).elim
      (fun h => h.ge) (fun h => by rw [h]; norm_num)
  rw [hx1]
  linarith

lemma sum_zip_allzero_pred (y : List ℚ) :
    ((y.zip (y.map fun _ => (0 : ℚ))).map fun ab => ab.1 * ab.2).sum = 0 := by
  induction y with
  | nil => rfl
  | cons a as ih =>
    simp only [List.map_cons, List.zip_cons_cons, List.sum_cons, ih]
    ring

lemma map_getD_range_eq {l : List ℚ} {K : ℕ} (h : l.length = K) :
    (List.range K).map (fun p => l.getD p 0) = l := by
  subst h
  apply List.ext_getElem?
  intro j
  by_cases hj : j < l.length
  · rw [List.getElem?_map]
    simp [List.getElem?_range, hj, List.getD_eq_getElem?_getD, List.getElem?_eq_getElem hj]
  · rw [List.getElem?_map,
      List.getElem?_eq_none (by simpa using le_of_not_lt hj),
      List.getElem?_eq_none (le_of_not_lt hj)]
    rfl

lemma unflatten_nil (w : ℕ) : unflatten w [] = [] := by
  unfold unflatten
  simp

lemma unflatten_append (w : ℕ) (hw : 0 < w) (a b : List ℚ) (ha : a.length = w) :
    unflatten w (a ++ b) = a :: unflatten w b := by
  have hane : a ≠ [] := by
    intro h; subst h; simp at ha; omega
  rw [unflatten]
  have hcond : ¬(w = 0 ∨ a ++ b = []) := by
    push_neg
    exact ⟨by omega, by simp [hane]⟩
  rw [if_neg hcond]
  congr 1
  · rw [← ha, List.take_left]
  · rw [← ha, List.drop_left]

lemma unflatten_normalize (W : ℕ) (hW : 0 < W) (img : List (List ℕ))
    (hrect : ∀ r ∈ img, r.length = W) :
    unflatten W (normalizeImg img) = img.map fun r => r.map fun p : ℕ => (p : ℚ) / 255 := by
  induction img with
  | nil => simpa [normalizeImg] using unflatten_nil W
  | cons r rest ih =>
    have hr : r.length = W := hrect r (List.mem_cons_self r rest)
    have hrest : ∀ q ∈ rest, q.length = W := fun q hq => hrect q (List.mem_cons_of_mem r hq)
    have hsplit : normalizeImg (r :: rest) =
        (r.map fun p : ℕ => (p : ℚ) / 255) ++ normalizeImg rest := by
      unfold normalizeImg
      rw [List.flatten_cons, List.map_append]
    rw [hsplit, unflatten_append W hW _ _ (by simp [hr]), ih hrest, List.map_cons]

/-- Claim C10: a pixel value exactly equal to the threshold is classified as
foreground (mapped to 1) by the metric binarization of `calc_iou`/`calc_f1`
(`binStep`, i.e. `pred[pred < t] = 0; pred[pred >= t] = 1`), but as background
(mapped to 0) by the mask transform of `play_video_removed` (`playStep`, i.e.
`subbed[subbed > t] = 1; subbed[subbed <= t] = 0`); the two binarizations
disagree on exactly-at-threshold inputs. -/
theorem threshold_boundary_disagreement (t : ℚ) :
    binStep t t = 1 ∧ playStep t t = 0 ∧ binStep t t ≠ playStep t t := by
  refine ⟨?_, ?_, ?_⟩ <;> simp [binStep, playStep]

/-- Claim C6: for a fixed array and thresholds `t1 ≤ t2`, the number of pixels
the metric binarization classifies as foreground at `t2` is at most the
number classified as foreground at `t1`. -/
theorem fgCount_threshold_antitone (l : List ℚ) (t1 t2 : ℚ) (h : t1 ≤ t2) :
    fgCount t2 l ≤ fgCount t1 l := by
  unfold fgCount
  rw [List.countP_map, List.countP_map]
  refine List.countP_mono_left fun x _ hx => ?_
  simp only [Function.comp, decide_eq_true_eq] at hx ⊢
  rw [binStep_eq_one_iff] at hx ⊢
  rcases hx with h1 | h2
  · exact Or.inl (le_trans h h1)
  · exact Or.inr (le_trans h h2)

/-- Witness for the claim C6 theorem at a concrete array and threshold pair. -/
theorem fgCount_threshold_antitone_witness :
    (1 : ℚ) / 4 ≤ 3 / 4 ∧ fgCount (3 / 4) [0, 1 / 2, 1] ≤ fgCount (1 / 4) [0, 1 / 2, 1] :=
  ⟨by norm_num, fgCount_threshold_antitone [0, 1 / 2, 1] (1 / 4) (3 / 4) (by norm_num)⟩

/-- Claim C1 (code bug): the matrix `get_video_dmd` returns never depends on
the noise: with the noise flag set the function builds the noisy clipped
matrix `vid` but then returns a freshly rebuilt `np.vstack(imgs).T`.  At the
concrete failing input (one 1×1 image with pixel 255, noise draw −1) the code
returns the clean matrix `[[1]]` while the spec-described loader
(`get_video_dmd_claimed`) would return the noisy clipped `[[0]]`. -/
theorem get_video_dmd_noise_dead :
    (∀ (imgs : List (List (List ℕ))) (ns ns' : List (List ℚ)),
      (get_video_dmd imgs true ns).1 = (get_video_dmd imgs false ns').1)
    ∧ (get_video_dmd [[[255]]] true [[-1]]).1 = [[1]]
    ∧ (get_video_dmd_claimed [[[255]]] true [[-1]]).1 = [[0]]
    ∧ (get_video_dmd [[[255]]] true [[-1]]).1 ≠ (get_video_dmd_claimed [[[255]]] true [[-1]]).1 := by
  have h1 : (get_video_dmd [[[255]]] true [[-1]]).1 = [[1]] := by
    norm_num [get_video_dmd, normalizeImg, matTranspose, List.range_succ]
  have h2 : (get_video_dmd_claimed [[[255]]] true [[-1]]).1 = [[0]] := by
    norm_num [get_video_dmd_claimed, normalizeImg, matTranspose, addMat, clipMat,
      clip01, List.range_succ]
  refine ⟨fun imgs ns ns' => rfl, h1, h2, ?_⟩
  rw [h1, h2]
  intro h
  have := List.head_eq_of_cons_eq h
  have := List.head_eq_of_cons_eq this
  norm_num at this

/-- Claim C9 (corrected): `get_video_removed` does not leave its input
unchanged — it subtracts `bg` from every frame of the caller's array in place
and returns that same mutated array. -/
theorem get_video_removed_mutates (video : List Frame) (bg : Frame) :
    (get_video_removed video bg).1 = video.map (fun f => subFrame f bg)
    ∧ (get_video_removed video bg).2 = (get_video_removed video bg).1 := by
  constructor
  · show (List.range video.length).foldl (gvrStep bg) video = _
    rw [List.range_eq_range']
    have heq : (fun (st : List Frame) (i : ℕ) =>
        st.set i ((fun f => subFrame f bg) (st.getD i []))) = gvrStep bg := rfl
    have h := foldl_set_loop ([] : Frame) (fun f => subFrame f bg) video
      video.length 0 video (by omega) rfl rfl
    rw [heq] at h
    rw [h]
    simp
  · rfl

/-- Counterexample to claim C9 as stated: after `get_video_removed` on the
one-frame video `[[[1]]]` with background `[[1]]`, the caller's video array
is `[[[0]]]`, not the original `[[[1]]]`. -/
theorem get_video_removed_changes_input :
    (get_video_removed [[[(1 : ℚ)]]] [[1]]).1 ≠ [[[(1 : ℚ)]]] := by
  have h : (get_video_removed [[[(1 : ℚ)]]] [[1]]).1 = [[[0]]] := by
    norm_num [get_video_removed, gvrStep, subFrame, List.range_succ]
  rw [h]
  intro hcontra
  have := List.head_eq_of_cons_eq hcontra
  have := List.head_eq_of_cons_eq this
  have := List.head_eq_of_cons_eq this
  norm_num at this

/-- Claim C8: `calc_iou` binarizes its `pred` argument in place (the caller's
`pred` state after the call is the binarized frame: below a positive
threshold ↦ 0, at or above ↦ 1) while leaving `truth` unmodified, and it
really changes `pred` (concrete instance included); `calc_miou` copies `pred`
before iterating, so the caller's `pred` is unchanged after `calc_miou`. -/
theorem calc_iou_inplace_calc_miou_copy :
    (∀ (pred truth : Frame) (t : ℚ),
      (calc_iou pred truth t).1 = binarizeFrame t pred
      ∧ (calc_iou pred truth t).2.1 = truth)
    ∧ (∀ t x : ℚ, 0 < t ∨ 0 ≤ x →
        (x < t → binStep t x = 0) ∧ (t ≤ x → binStep t x = 1))
    ∧ (calc_iou [[(1 : ℚ) / 2]] [[1]] (3 / 4)).1 ≠ [[(1 : ℚ) / 2]]
    ∧ (∀ (pred truth : List Frame) (t : ℚ), (calc_miou pred truth t).2.1 = pred) := by
  refine ⟨fun _ _ _ => ⟨rfl, rfl⟩, ?_, ?_, ?_⟩
  · intro t x h
    constructor
    · intro hx
      have ht : 0 < t := h.elim id fun h0 => lt_of_le_of_lt h0 hx
      unfold binStep
      rw [if_pos hx, if_neg (not_le.2 ht)]
    · intro hx
      unfold binStep
      rw [if_neg (not_lt.2 hx), if_pos hx]
  · have h : (calc_iou [[(1 : ℚ) / 2]] [[1]] (3 / 4)).1 = [[0]] := by
      norm_num [calc_iou, binarizeFrame, binStep]
    rw [h]
    intro hcontra
    have := List.head_eq_of_cons_eq hcontra
    have := List.head_eq_of_cons_eq this
    norm_num at this
  · intro pred truth t
    unfold calc_miou
    split <;> rfl

/-- Witness for the claim C8 theorem: concrete binarization effects and an
unchanged caller array after `calc_miou`. -/
theorem calc_iou_inplace_calc_miou_copy_witness :
    binStep (1 / 2) (1 / 4) = 0 ∧ binStep (1 / 2) (3 / 4) = 1
    ∧ (calc_miou [[[(1 : ℚ)]]] [[[1]]] (1 / 2)).2.1 = [[[(1 : ℚ)]]] :=
  ⟨(calc_iou_inplace_calc_miou_copy.2.1 (1 / 2) (1 / 4) (Or.inl (by norm_num))).1 (by norm_num),
   (calc_iou_inplace_calc_miou_copy.2.1 (1 / 2) (3 / 4) (Or.inl (by norm_num))).2 (by norm_num),
   calc_iou_inplace_calc_miou_copy.2.2.2 _ _ _⟩

/-- Claim C4: with matching shapes and at least one frame, `calc_miou`
returns the arithmetic mean over all frame indices of `calc_iou` on the
corresponding frames of (the original) `pred` and `truth`; with differing
shapes it fails with the shape-mismatch error. -/
theorem calc_miou_mean_and_shape_error (pred truth : List Frame) (t : ℚ) :
    (vshape pred = vshape truth → 0 < pred.length →
      (calc_miou pred truth t).1 = Except.ok
        ((((List.range pred.length).map fun i =>
          (calc_iou (pred.getD i []) (truth.getD i []) t).2.2).sum) / (pred.length : ℚ)))
    ∧ (vshape pred ≠ vshape truth →
      (calc_miou pred truth t).1 = Except.error "Pred and truth must be same shape") := by
  constructor
  · intro hsh _
    simp only [calc_miou, if_pos hsh]
    rw [List.range_eq_range',
      miou_loop t pred truth pred.length 0 pred 0 (by omega) rfl rfl]
    norm_num
  · intro hne
    simp only [calc_miou, if_neg hne]

/-- Witness for the claim C4 theorem on a concrete two-frame video pair of
equal shapes. -/
theorem calc_miou_mean_witness :
    vshape [[[(1 : ℚ), 0]], [[0, 0]]] = vshape [[[(1 : ℚ), 0]], [[1, 1]]]
    ∧ (calc_miou [[[(1 : ℚ), 0]], [[0, 0]]] [[[(1 : ℚ), 0]], [[1, 1]]] (1 / 2)).1 =
      Except.ok ((((List.range 2).map fun i =>
        (calc_iou ([[[(1 : ℚ), 0]], [[0, 0]]].getD i [])
          ([[[(1 : ℚ), 0]], [[1, 1]]].getD i []) (1 / 2)).2.2).sum) / 2) :=
  ⟨by decide,
   (calc_miou_mean_and_shape_error [[[(1 : ℚ), 0]], [[0, 0]]]
     [[[(1 : ℚ), 0]], [[1, 1]]] (1 / 2)).1 (by decide) (by decide)⟩

/-- Claim C3: the IoU value returned by `calc_iou` always lies in `[0, 1]`;
and for binary masks with a threshold in `(0, 1]` it is `1` when `pred`
equals `truth` with at least one positive pixel, `0` when there is no
overlapping positive pixel but `truth` has one (same shapes), and exactly `0`
when neither mask has a positive pixel (the union-is-zero fallback). -/
theorem calc_iou_range_and_extremes (pred truth : Frame) (t : ℚ) :
    (0 ≤ (calc_iou pred truth t).2.2 ∧ (calc_iou pred truth t).2.2 ≤ 1)
    ∧ (isBinaryFrame pred → isBinaryFrame truth → 0 < t → t ≤ 1 →
        ((pred = truth → hasPositive truth → (calc_iou pred truth t).2.2 = 1)
        ∧ (noOverlap pred truth → frameShape pred = frameShape truth →
            hasPositive truth → (calc_iou pred truth t).2.2 = 0)
        ∧ (¬hasPositive pred → ¬hasPositive truth →
            (calc_iou pred truth t).2.2 = 0))) := by
  refine ⟨⟨?_, ?_⟩, fun hbp hbt h0 h1 => ⟨?_, ?_, ?_⟩⟩
  · rw [iou_value_eq]
    split_ifs with h
    · exact div_nonneg (Nat.cast_nonneg _) (Nat.cast_nonneg _)
    · exact le_refl 0
  · rw [iou_value_eq]
    split_ifs with h
    · rw [div_le_one (by exact_mod_cast h)]
      exact_mod_cast andSum_le_orSum _ _
    · exact zero_le_one
  · intro heq hpos
    subst heq
    rw [iou_value_eq, binarizeFrame_of_binary pred hbp h0 h1]
    have handq : (fun a : ℚ => decide (a ≠ 0) && decide (a ≠ 0)) =
        fun a : ℚ => decide (a ≠ 0) := by
      funext a; exact Bool.and_self _
    have horq : (fun a : ℚ => decide (a ≠ 0) || decide (a ≠ 0)) =
        fun a : ℚ => decide (a ≠ 0) := by
      funext a; exact Bool.or_self _
    have hand : andSum pred pred = pred.flatten.countP fun a => decide (a ≠ 0) := by
      unfold andSum
      rw [countP_zip_self, handq]
    have hor : orSum pred pred = pred.flatten.countP fun a => decide (a ≠ 0) := by
      unfold orSum
      rw [countP_zip_self, horq]
    have hc : 0 < pred.flatten.countP fun a => decide (a ≠ 0) := by
      rw [List.countP_pos_iff]
      obtain ⟨x, hx, hx0⟩ := hpos
      exact ⟨x, hx, by simpa using hx0⟩
    rw [hand, hor, if_pos hc]
    exact div_self (Nat.cast_ne_zero.2 hc.ne')
  · intro hno hsh hpos
    rw [iou_value_eq, binarizeFrame_of_binary pred hbp h0 h1]
    have hand : andSum pred truth = 0 := by
      unfold andSum
      rw [List.countP_eq_zero]
      intro ab hab
      have h := hno ab hab
      simp only [Bool.and_eq_true, decide_eq_true_eq]
      tauto
    have hor : 0 < orSum pred truth := by
      unfold orSum
      rw [List.countP_pos_iff]
      obtain ⟨x, hx, hx0⟩ := hpos
      obtain ⟨i, hi, hxe⟩ := List.mem_iff_getElem.1 hx
      have hlen := flatten_length_of_shape hsh
      have hiz : i < (pred.flatten.zip truth.flatten).length := by
        rw [List.length_zip]; omega
      refine ⟨(pred.flatten.zip truth.flatten)[i], List.getElem_mem hiz, ?_⟩
      rw [List.getElem_zip]
      simp only [Bool.or_eq_true, decide_eq_true_eq]
      right
      rw [hxe]
      exact hx0
    rw [if_pos hor, hand]
    norm_num
  · intro hnp hnt
    rw [iou_value_eq]
    unfold hasPositive at hnp hnt
    push_neg at hnp hnt
    have hall : ∀ ab ∈ (binarizeFrame t pred).flatten.zip truth.flatten,
        ¬((fun ab : ℚ × ℚ => decide (ab.1 ≠ 0) || decide (ab.2 ≠ 0)) ab = true) := by
      rintro ⟨a, b⟩ hab
      obtain ⟨ha, hb⟩ := List.of_mem_zip hab
      rw [flatten_binarize] at ha
      obtain ⟨x, hx, rfl⟩ := List.mem_map.1 ha
      have hx0 : x = 0 := hnp x hx
      have hb0 : b = 0 := hnt b hb
      subst hx0
      subst hb0
      have hbs : binStep t 0 = 0 := binStep_of_binary t 0 (Or.inl rfl) h0 h1
      simp [hbs]
    have hor0 : orSum (binarizeFrame t pred) truth = 0 := List.countP_eq_zero.2 hall
    rw [hor0]
    norm_num

/-- Witness for the claim C3 theorem: value 1 on identical nonempty binary
masks, value 0 on disjoint masks, and value 0 on empty masks. -/
theorem calc_iou_range_and_extremes_witness :
    (calc_iou [[(1 : ℚ), 0]] [[(1 : ℚ), 0]] (1 / 2)).2.2 = 1
    ∧ (calc_iou [[(1 : ℚ), 0]] [[(0 : ℚ), 1]] (1 / 2)).2.2 = 0
    ∧ (calc_iou [[(0 : ℚ)]] [[(0 : ℚ)]] (1 / 2)).2.2 = 0 :=
  ⟨((calc_iou_range_and_extremes [[(1 : ℚ), 0]] [[(1 : ℚ), 0]] (1 / 2)).2
      (by norm_num [isBinaryFrame]) (by norm_num [isBinaryFrame])
      (by norm_num) (by norm_num)).1 rfl ⟨1, by norm_num, by norm_num⟩,
   ((calc_iou_range_and_extremes [[(1 : ℚ), 0]] [[(0 : ℚ), 1]] (1 / 2)).2
      (by norm_num [isBinaryFrame]) (by norm_num [isBinaryFrame])
      (by norm_num) (by norm_num)).2.1
      (by norm_num [noOverlap]) rfl ⟨1, by norm_num, by norm_num⟩,
   ((calc_iou_range_and_extremes [[(0 : ℚ)]] [[(0 : ℚ)]] (1 / 2)).2
      (by norm_num [isBinaryFrame]) (by norm_num [isBinaryFrame])
      (by norm_num) (by norm_num)).2.2
      (by norm_num [hasPositive]) (by norm_num [hasPositive])⟩

/-- Claim C5: `f1_score(y, y)` on a binary array with at least one positive
entry lies within twice the stabilizer `epsilon = 1e-7` of `1.0` (the
epsilon-stabilized denominators keep it strictly below 1), and `f1_score` of
any truth with at least one positive entry against an all-zero prediction is
exactly `0`, which is within epsilon-tolerance of `0.0`. -/
theorem f1_score_perfect_and_allzero (y yt : List ℚ)
    (hb : ∀ x ∈ y, x = 0 ∨ x = 1) (hy : ∃ x ∈ y, x ≠ 0) (hyt : ∃ x ∈ yt, x ≠ 0) :
    (1 - 2 * (1 / 10000000) ≤ f1_score y y 1 ∧ f1_score y y 1 ≤ 1)
    ∧ f1_score yt (yt.map fun _ => (0 : ℚ)) 1 = 0 := by
  constructor
  · have htp := sum_zip_self_mul y hb
    have hfp := sum_zip_self_fp y hb
    have hfn := sum_zip_self_fn y hb
    have hn : 1 ≤ y.sum := one_le_sum_of_binary y hb hy
    simp only [f1_score, htp, hfp, hfn, add_zero, one_pow, one_mul]
    set n := y.sum with hns
    have hd1 : (0 : ℚ) < n + 1 / 10000000 := by linarith
    set q : ℚ := n / (n + 1 / 10000000) with hqdef
    have hq1 : q ≤ 1 := by
      rw [hqdef, div_le_one hd1]; linarith
    have hq0 : 1 - 1 / 10000000 ≤ q := by
      rw [hqdef, le_div_iff₀ hd1]; nlinarith
    have hden : (0 : ℚ) < q + q + 1 / 10000000 := by nlinarith
    constructor
    · rw [le_div_iff₀ hden]
      nlinarith [mul_nonneg (by linarith : (0 : ℚ) ≤ q - (1 - 1 / 10000000))
        (by linarith : (0 : ℚ) ≤ q)]
    · rw [div_le_one hden]
      nlinarith [mul_nonneg (by linarith : (0 : ℚ) ≤ q)
        (by linarith : (0 : ℚ) ≤ 1 - q)]
  · have h0 := sum_zip_allzero_pred yt
    simp only [f1_score, h0]
    simp [zero_div]

/-- Witness for the claim C5 theorem on the singleton binary array `[1]`. -/
theorem f1_score_perfect_and_allzero_witness :
    ((1 : ℚ) - 2 * (1 / 10000000) ≤ f1_score [1] [1] 1 ∧ f1_score [1] [1] 1 ≤ 1)
    ∧ f1_score [1] ([1].map fun _ => (0 : ℚ)) 1 = 0 :=
  f1_score_perfect_and_allzero [1] [1] (by norm_num)
    ⟨1, by norm_num, by norm_num⟩ ⟨1, by norm_num, by norm_num⟩

/-- Claim C7: loading `N` single-channel `H×W` images in matrix mode (no
noise) yields an `(H·W, N)` matrix together with the original `(H, W)`, and
column `i`, reshaped to `H×W`, is exactly image `i` normalized by `1/255`. -/
theorem get_video_dmd_matrix_roundtrip (imgs : List (List (List ℕ))) (H W : ℕ)
    (hH : 0 < H) (hW : 0 < W) (hne : imgs ≠ [])
    (hrect : ∀ im ∈ imgs, im.length = H ∧ ∀ r ∈ im, r.length = W) :
    (get_video_dmd imgs false []).1.length = H * W
    ∧ (∀ row ∈ (get_video_dmd imgs false []).1, row.length = imgs.length)
    ∧ (∀ i, i < imgs.length →
        unflatten W (colOf (get_video_dmd imgs false []).1 i) =
          (imgs.getD i []).map fun r => r.map fun p : ℕ => (p : ℚ) / 255)
    ∧ (get_video_dmd imgs false []).2 = some (H, W) := by
  have hnorml : ∀ im ∈ imgs, (normalizeImg im).length = H * W := by
    intro im him
    unfold normalizeImg
    rw [List.length_map, List.length_flatten]
    have hrep : im.map List.length = List.replicate H W :=
      List.eq_replicate_iff.2 ⟨by rw [List.length_map, (hrect im him).1],
        fun b hb => by
          obtain ⟨r, hr, rfl⟩ := List.mem_map.1 hb
          exact (hrect im him).2 r hr⟩
    rw [hrep, List.sum_replicate, smul_eq_mul]
  have h1 : (get_video_dmd imgs false []).1 = matTranspose (imgs.map normalizeImg) := rfl
  have hflen : (imgs.map normalizeImg).length = imgs.length := List.length_map _ _
  have hK : ((imgs.map normalizeImg).headD []).length = H * W := by
    obtain ⟨i0, rest, rfl⟩ := List.exists_cons_of_ne_nil hne
    simp only [List.map_cons, List.headD_cons]
    exact hnorml i0 (List.mem_cons_self _ _)
  refine ⟨?_, ?_, ?_, ?_⟩
  · rw [h1]
    unfold matTranspose
    rw [List.length_map, List.length_range, hK]
  · intro row hrow
    rw [h1] at hrow
    unfold matTranspose at hrow
    obtain ⟨p, _, rfl⟩ := List.mem_map.1 hrow
    rw [List.length_map, hflen]
  · intro i hi
    have hif : i < (imgs.map normalizeImg).length := by rw [hflen]; exact hi
    have hcol : colOf (get_video_dmd imgs false []).1 i = normalizeImg imgs[i] := by
      rw [h1]
      unfold colOf matTranspose
      rw [List.map_map]
      have hcongr : ∀ p ∈ List.range ((imgs.map normalizeImg).headD []).length,
          ((fun row : List ℚ => row.getD i 0) ∘
            fun p => (imgs.map normalizeImg).map fun r => r.getD p 0) p =
          ((imgs.map normalizeImg)[i]).getD p 0 := by
        intro p _
        simp only [Function.comp]
        rw [List.getD_eq_getElem?_getD, List.getElem?_map, List.getElem?_eq_getElem hif]
        rfl
      rw [List.map_congr_left hcongr]
      have hilen : ((imgs.map normalizeImg)[i]).length =
          ((imgs.map normalizeImg).headD []).length := by
        rw [hK, List.getElem_map]
        exact hnorml _ (List.getElem_mem hi)
      rw [map_getD_range_eq hilen, List.getElem_map]
    rw [hcol, unflatten_normalize W hW _ (hrect _ (List.getElem_mem hi)).2]
    have hgd : imgs.getD i [] = imgs[i] := by
      rw [List.getD_eq_getElem?_getD, List.getElem?_eq_getElem hi]
      rfl
    rw [hgd]
  · unfold get_video_dmd lastShape
    have hlast : imgs.getLast? = some (imgs.getLast hne) := List.getLast?_eq_getLast imgs hne
    rw [hlast]
    have hmem := List.getLast_mem hne
    have hlen : (imgs.getLast hne).length = H := (hrect _ hmem).1
    have hnil : imgs.getLast hne ≠ [] := by
      intro hnil'
      rw [hnil'] at hlen
      simp at hlen
      omega
    obtain ⟨r, rs, hcons⟩ := List.exists_cons_of_ne_nil hnil
    have hrW : r.length = W := (hrect _ hmem).2 r (by rw [hcons]; exact List.mem_cons_self r rs)
    have hstep : Option.map (fun im : List (List ℕ) => (im.length, (im.headD []).length))
        (some (imgs.getLast hne)) =
        some ((imgs.getLast hne).length, ((imgs.getLast hne).headD []).length) := rfl
    rw [hstep, hlen, hcons]
    simp only [List.headD_cons]
    rw [hrW]

/-- Witness for the claim C7 theorem on two concrete 1×2 images. -/
theorem get_video_dmd_matrix_roundtrip_witness :
    (get_video_dmd [[[0, 255]], [[255, 0]]] false []).1.length = 1 * 2
    ∧ unflatten 2 (colOf (get_video_dmd [[[0, 255]], [[255, 0]]] false []).1 0) =
        ([[[0, 255]], [[255, 0]]].getD 0 []).map (fun r => r.map fun p : ℕ => (p : ℚ) / 255)
    ∧ unflatten 2 (colOf (get_video_dmd [[[0, 255]], [[255, 0]]] false []).1 1) =
        ([[[0, 255]], [[255, 0]]].getD 1 []).map (fun r => r.map fun p : ℕ => (p : ℚ) / 255)
    ∧ (get_video_dmd [[[0, 255]], [[255, 0]]] false []).2 = some (1, 2) := by
  have h := get_video_dmd_matrix_roundtrip [[[0, 255]], [[255, 0]]] 1 2
    (by norm_num) (by norm_num) (by decide) (by decide)
  exact ⟨h.1, h.2.2.1 0 (by norm_num), h.2.2.1 1 (by norm_num), h.2.2.2⟩

/-- Claim C2 (corrected): despite the swapped local names, `get_gt_video`
reads the pixel data of every intersected filename from the ground-truth
directory (the local called `jpeg_dir` holds `SegTrackv2/GroundTruth/`, and
the raw-frame path bound to `tmp` is dead); it coincides with the intended
ground-truth loader, and its output is independent of what the reader
returns outside the ground-truth directory. -/
theorem get_gt_video_reads_groundtruth :
    (∀ (listing : String → List String) (readImg : String → List (List ℕ))
        (object : String),
      get_gt_video listing readImg object = gt_video_intended listing readImg object)
    ∧ (∀ (listing : String → List String) (readA readB : String → List (List ℕ))
        (object : String),
        (∀ f, readA ("SegTrackv2/GroundTruth/" ++ object ++ "/" ++ f) =
              readB ("SegTrackv2/GroundTruth/" ++ object ++ "/" ++ f)) →
        get_gt_video listing readA object = get_gt_video listing readB object) := by
  constructor
  · intro listing readImg object
    rfl
  · intro listing readA readB object h
    unfold get_gt_video
    refine List.map_congr_left fun i _ => ?_
    show ((readA ("SegTrackv2/GroundTruth/" ++ object ++ "/" ++ i)).map fun row =>
        row.map fun p : ℕ => (p : ℚ) / 255) =
      (readB ("SegTrackv2/GroundTruth/" ++ object ++ "/" ++ i)).map fun row =>
        row.map fun p : ℕ => (p : ℚ) / 255
    rw [h i]

/-- Witness for the claim C2 theorem: two readers that differ on the
raw-frame file `SegTrackv2/JPEGImages/frog/a` but agree on every ground-truth
path produce identical loader output. -/
theorem get_gt_video_reads_groundtruth_witness :
    get_gt_video (fun _ => ["a"]) (fun _ => [[255]]) "frog" =
    get_gt_video (fun _ => ["a"])
      (fun p => if p = "SegTrackv2/JPEGImages/frog/a" then [[0]] else [[255]]) "frog" := by
  apply get_gt_video_reads_groundtruth.2
  intro f
  have hpre : ("SegTrackv2/GroundTruth/" ++ "frog" ++ "/" : String) =
      "SegTrackv2/GroundTruth/frog/" := by decide
  rw [hpre]
  have hne : ("SegTrackv2/GroundTruth/frog/" ++ f) ≠ "SegTrackv2/JPEGImages/frog/a" := by
    intro h
    have hd := congrArg String.data h
    rw [String.data_append] at hd
    have htake := congrArg (List.take 28) hd
    have hlen : ("SegTrackv2/GroundTruth/frog/" : String).data.length = 28 := by decide
    rw [← hlen, List.take_left] at htake
    rw [hlen] at htake
    exact absurd htake (by decide)
  rw [if_neg hne]

/-- Counterexample to claim C2 as stated: with both directories listing the
single file `a`, where the ground-truth copy is white (255) and everything
else black (0), `get_gt_video` returns the white ground-truth pixels, not
what the claimed raw-frame-reading loader (`get_gt_video_claimed`) returns. -/
theorem get_gt_video_counterexample :
    get_gt_video (fun _ => ["a"])
      (fun p => if p = "SegTrackv2/GroundTruth/frog/a" then [[255]] else [[0]]) "frog" =
      [[[1]]]
    ∧ get_gt_video_claimed (fun _ => ["a"])
      (fun p => if p = "SegTrackv2/GroundTruth/frog/a" then [[255]] else [[0]]) "frog" =
      [[[0]]]
    ∧ get_gt_video (fun _ => ["a"])
      (fun p => if p = "SegTrackv2/GroundTruth/frog/a" then [[255]] else [[0]]) "frog" ≠
      get_gt_video_claimed (fun _ => ["a"])
      (fun p => if p = "SegTrackv2/GroundTruth/frog/a" then [[255]] else [[0]]) "frog" := by
  have hgt : ("SegTrackv2/GroundTruth/" ++ "frog" ++ "/" ++ "a" : String) =
      "SegTrackv2/GroundTruth/frog/a" := by decide
  have hraw : ("SegTrackv2/JPEGImages/" ++ "frog" ++ "/" ++ "a" : String) =
      "SegTrackv2/JPEGImages/frog/a" := by decide
  have hsort : sortStr ["a"] = ["a"] := rfl
  have hfilter : (["a"] : List String).filter (fun f => (["a"] : List String).contains f) =
      ["a"] := by decide
  have h1 : get_gt_video (fun _ => ["a"])
      (fun p => if p = "SegTrackv2/GroundTruth/frog/a" then [[255]] else [[0]]) "frog" =
      [[[1]]] := by
    norm_num [get_gt_video, hsort, hfilter, hgt]
  have hne2 : ("SegTrackv2/JPEGImages/frog/a" : String) ≠ "SegTrackv2/GroundTruth/frog/a" := by
    decide
  have h2 : get_gt_video_claimed (fun _ => ["a"])
      (fun p => if p = "SegTrackv2/GroundTruth/frog/a" then [[255]] else [[0]]) "frog" =
      [[[0]]] := by
    norm_num [get_gt_video_claimed, hsort, hfilter, hraw, hne2]
  refine ⟨h1, h2, ?_⟩
  rw [h1, h2]
  intro hcontra
  have := List.head_eq_of_cons_eq hcontra
  have := List.head_eq_of_cons_eq this
  have := List.head_eq_of_cons_eq this
  norm_num at this

end Tutorial12
